import Mathlib

/-!
Shallow embedding of the Real Estate Investment Analyzer (src/app.py) over
exact rationals.  The script's sidebar inputs become function parameters;
the script-level computations (EMI, disbursement schedule, net-rent series,
property values, cash-flow series, IRR call) and the
`amortization_schedule` function become Lean definitions, translated
line by line from the source.  Calls into the numpy-financial library
(`npf.pmt`, `npf.irr`) are embedded from that library's documented
closed forms: `pmt` is the annuity formula, and `irr` is modelled up to
its same-sign early exit, with the floating-point root refinement kept
abstract as a `solve` parameter (no theorem below depends on it).
-/

set_option autoImplicit false

namespace App

/-- The numpy-financial payment function `npf.pmt(rate, nper, pv)` with the
default `fv = 0`, `when = end`: the fixed periodic payment solving
`pv*(1+rate)^nper + pmt*((1+rate)^nper - 1)/rate = 0`; for `rate = 0` it
degenerates to `-pv / nper`. -/
def pmt (rate : ℚ) (nper : ℕ) (pv : ℚ) : ℚ :=
  if rate = 0 then -(pv / (nper : ℚ))
  else -(pv * rate * (1 + rate) ^ nper) / ((1 + rate) ^ nper - 1)

/-- One record of the amortization ledger built in `amortization_schedule`
(src/app.py lines 227-232): fields Month, Interest Paid, Principal Paid,
Balance.  After annual aggregation the `month` field holds the Year
(renamed Period in the DataFrame). -/
structure Entry where
  month : ℕ
  interest : ℚ
  principalPaid : ℚ
  balance : ℚ
deriving DecidableEq, Repr

/-- Loop body of `amortization_schedule` (src/app.py lines 220-232): at month
`m` with `k+1` periods remaining (`n_months - month + 1 = k + 1`) and running
`balance`, compute `interest = balance * monthly_rate`, recompute
`payment = npf.pmt(monthly_rate, n_months - month + 1, -balance)`,
`principal_paid = payment - interest`, subtract and clamp the balance with
`max(balance, 0)`, append the record, and continue. -/
def amortAux (monthlyRate : ℚ) : ℕ → ℚ → ℕ → List Entry
  | _, _, 0 => []
  | m, balance, k + 1 =>
    let interest := balance * monthlyRate
    let payment := pmt monthlyRate (k + 1) (-balance)
    let principalPaid := payment - interest
    let balance2 := max (balance - principalPaid) 0
    ⟨m, interest, principalPaid, balance2⟩ :: amortAux monthlyRate (m + 1) balance2 k

/-- The monthly ledger of `amortization_schedule(principal, annual_rate,
years, view)` (src/app.py lines 213-232): `monthly_rate = annual_rate/12/100`,
`n_months = years * 12`, months iterated `1 .. n_months`. -/
def amortization_schedule (principal annualRate : ℚ) (years : ℕ) : List Entry :=
  amortAux (annualRate / 12 / 100) 1 principal (years * 12)

/-- Ledger of the same loan written with the installment computed once over
the full term (the spec's fixed-installment reading, used to compare with
`amortization_schedule`, which recomputes the payment each month). -/
def amortFixedAux (monthlyRate payment : ℚ) : ℕ → ℚ → ℕ → List Entry
  | _, _, 0 => []
  | m, balance, k + 1 =>
    let interest := balance * monthlyRate
    let principalPaid := payment - interest
    let balance2 := max (balance - principalPaid) 0
    ⟨m, interest, principalPaid, balance2⟩ :: amortFixedAux monthlyRate payment (m + 1) balance2 k

/-- Fixed-installment ledger over the full term: every month pays
`npf.pmt(monthly_rate, n_months, -principal)`. -/
def fixedLedger (principal annualRate : ℚ) (years : ℕ) : List Entry :=
  amortFixedAux (annualRate / 12 / 100)
    (pmt (annualRate / 12 / 100) (years * 12) (-principal)) 1 principal (years * 12)

/-- EMI of src/app.py line 79: `npf.pmt(loan_interest_rate/12/100,
loan_tenure_yrs*12, -loan_amt)`. -/
def emi (loanAmt annualRate : ℚ) (loanTenureYrs : ℕ) : ℚ :=
  pmt (annualRate / 12 / 100) (loanTenureYrs * 12) (-loanAmt)

/-- Down payment of src/app.py line 73: `property_price * down_payment_pct / 100`. -/
def down_payment_amt (propertyPrice downPaymentPct : ℚ) : ℚ :=
  propertyPrice * downPaymentPct / 100

/-- Loan amount of src/app.py line 74: `property_price - down_payment_amt`. -/
def loan_amt (propertyPrice downPaymentPct : ℚ) : ℚ :=
  propertyPrice - down_payment_amt propertyPrice downPaymentPct

/-- Disbursement schedule for the under-construction branch (src/app.py
lines 83-86): for each `(pct, month)` in `zip(payment_splits,
payment_timing)`, in input order, append `(month / 12, loan_amt * (pct /
100))` — the month is converted to years and the amount is a fraction of
the loan amount. -/
def disbursement_schedule (loanAmt : ℚ) (paymentSplits : List ℚ)
    (paymentTiming : List ℕ) : List (ℚ × ℚ) :=
  (paymentSplits.zip paymentTiming).map
    (fun pm => ((pm.2 : ℚ) / 12, loanAmt * (pm.1 / 100)))

/-- Validation of the payment splits (src/app.py lines 50-51): when
`abs(sum(payment_splits) - 100) > 0.01` a sidebar warning is shown; this
Boolean is that condition.  Nothing else in the script depends on it. -/
def paymentSplitsWarning (paymentSplits : List ℚ) : Bool :=
  decide ((1 : ℚ) / 100 < |paymentSplits.sum - 100|)

/-- Rent loop of src/app.py lines 96-103: iterate `i = 0 .. horizon_years-1`
with `current_rent` starting at the annual net rent; during construction
years of an under-construction property append `0` (the growth multiplier
is not applied in those years), otherwise append `current_rent` and then
multiply it by `1 + rental_growth / 100`. -/
def netRentAux (underConstruction : Bool) (constructionYears : ℕ)
    (rentalGrowth : ℚ) : ℕ → ℕ → ℚ → List ℚ
  | 0, _, _ => []
  | n + 1, i, current =>
    if underConstruction = true ∧ i < constructionYears then
      0 :: netRentAux underConstruction constructionYears rentalGrowth n (i + 1) current
    else
      current ::
        netRentAux underConstruction constructionYears rentalGrowth n (i + 1)
          (current * (1 + rentalGrowth / 100))

/-- The annual net-rent series `net_rent_vals` (src/app.py lines 92-103),
seeded with `net_rent_annual = rent_monthly * 12 - annual_maintenance`. -/
def net_rent_vals (underConstruction : Bool) (constructionYears horizonYears : ℕ)
    (rentMonthly annualMaintenance rentalGrowth : ℚ) : List ℚ :=
  netRentAux underConstruction constructionYears rentalGrowth horizonYears 0
    (rentMonthly * 12 - annualMaintenance)

/-- Year-wise property values (src/app.py line 108):
`property_price * (1 + capital_appreciation/100) ^ (i+1)` for
`i = 0 .. horizon_years - 1`. -/
def property_vals (propertyPrice capitalAppreciation : ℚ) (horizonYears : ℕ) : List ℚ :=
  (List.range horizonYears).map
    (fun i => propertyPrice * (1 + capitalAppreciation / 100) ^ (i + 1))

/-- Final property value (src/app.py line 109): `property_vals[-1]`; the
sidebar slider keeps `horizon_years ≥ 1`, so the list is nonempty and this
equals `property_price * (1 + capital_appreciation/100) ^ horizon_years`. -/
def final_property_value (propertyPrice capitalAppreciation : ℚ) (horizonYears : ℕ) : ℚ :=
  (property_vals propertyPrice capitalAppreciation horizonYears).getLastD 0

/-- Approximate interest paid (src/app.py line 114):
`emi * min(horizon_years, loan_tenure_yrs) * 12 - loan_amt`. -/
def interest_paid (emiVal : ℚ) (horizonYears loanTenureYrs : ℕ) (loanAmt : ℚ) : ℚ :=
  emiVal * ((min horizonYears loanTenureYrs : ℕ) : ℚ) * 12 - loanAmt

/-- The cash-flow series fed to `npf.irr` (src/app.py lines 118-121):
`[-down_payment_amt]`, then every annual net rent except the last, then the
last net rent plus the final property value.  The sidebar keeps
`horizon_years ≥ 1`, so `net_rent_vals` is nonempty. -/
def cashflows (downPaymentAmt : ℚ) (netRentVals : List ℚ)
    (finalPropertyValue : ℚ) : List ℚ :=
  -downPaymentAmt :: (netRentVals.dropLast ++ [netRentVals.getLastD 0 + finalPropertyValue])

/-- Sum of the magnitudes of the negative entries of a cash-flow series. -/
def totalOutflows (cfs : List ℚ) : ℚ := (cfs.map (fun x => max (-x) 0)).sum

/-- Sum of the positive entries of a cash-flow series. -/
def totalInflows (cfs : List ℚ) : ℚ := (cfs.map (fun x => max x 0)).sum

/-- The one error numpy-financial can raise from `irr` on a same-sign
series, and only when `raise_exceptions=True` is passed. -/
inductive NpfError where
  | noRealSolution
deriving DecidableEq, Repr

/-- Same-sign early exit of `npf.irr`:
`np.all(values > 0) if values[0] > 0 else np.all(values < 0)`.  On the
empty list `np.all` is vacuously true; the script always passes a nonempty
series. -/
def sameSign (values : List ℚ) : Bool :=
  match values with
  | [] => true
  | v :: _ => if 0 < v then values.all (fun x => decide (0 < x)) else values.all (fun x => decide (x < 0))

/-- The numpy-financial `irr`: when all cash flows share one sign it exits
early — raising `NoRealSolutionError` only if `raise_exceptions=True`, and
otherwise returning `np.nan` (modelled as `Option.none`) — and only
otherwise runs the polynomial root selection, kept abstract here as
`solve`.  src/app.py line 122 calls it with the default
`raise_exceptions=False`. -/
def irr (solve : List ℚ → Option ℚ) (raiseExceptions : Bool)
    (values : List ℚ) : Except NpfError (Option ℚ) :=
  if sameSign values then
    if raiseExceptions then Except.error NpfError.noRealSolution
    else Except.ok none
  else Except.ok (solve values)

/-- A stand-in root finder used only to instantiate `irr` at concrete
inputs whose result the same-sign exit decides before `solve` is ever
consulted. -/
def irrSolveStub : List ℚ → Option ℚ := fun _ => none

/-- Year key assigned to a month in the annual aggregation (src/app.py line
242): `((month - 1) // 12) + 1`, which equals `ceil(month / 12)` for
`month ≥ 1`. -/
def yearOf (month : ℕ) : ℕ := (month - 1) / 12 + 1

/-- Annual aggregation of src/app.py lines 239-247: group the monthly
records by their year key and take sum of Interest Paid, sum of Principal
Paid, and last Balance in each group.  For a ledger with consecutive months
`1, 2, 3, ...` the groups are the successive blocks of 12 records (the last
block holding whatever months remain), so the groupby is realized by
chunking; the produced `month` field holds the Year (Period). -/
def toAnnual : List Entry → List Entry
  | [] => []
  | e :: rest =>
    let block := e :: rest.take 11
    ⟨yearOf e.month, (block.map Entry.interest).sum,
      (block.map Entry.principalPaid).sum,
      (block.getLast (by simp)).balance⟩ :: toAnnual (rest.drop 11)
termination_by l => l.length
decreasing_by simp [List.length_drop]; omega

/-- A default record used only as the out-of-range placeholder of `List.getD`. -/
def noEntry : Entry := ⟨0, 0, 0, 0⟩

/-- A concrete thirteen-month ledger (months 1..13, constant flows, one
partial final year) used as an aggregation input. -/
def lw13 : List Entry :=
  [⟨1, 5, 7, 90⟩, ⟨2, 5, 7, 80⟩, ⟨3, 5, 7, 70⟩, ⟨4, 5, 7, 60⟩,
   ⟨5, 5, 7, 50⟩, ⟨6, 5, 7, 45⟩, ⟨7, 5, 7, 40⟩, ⟨8, 5, 7, 35⟩,
   ⟨9, 5, 7, 30⟩, ⟨10, 5, 7, 25⟩, ⟨11, 5, 7, 20⟩, ⟨12, 5, 7, 15⟩,
   ⟨13, 5, 7, 0⟩]

/-! Algebraic facts about `pmt` that drive the amortization proofs. -/

theorem pmt_zero_rate (n : ℕ) (pv : ℚ) : pmt 0 n pv = -(pv / (n : ℚ)) := by
  simp [pmt]

theorem pmt_pos_rate {r : ℚ} (hr : r ≠ 0) (n : ℕ) (pv : ℚ) :
    pmt r n pv = -(pv * r * (1 + r) ^ n) / ((1 + r) ^ n - 1) := by
  simp [pmt, hr]

theorem denom_pos {r : ℚ} (hr : 0 < r) (k : ℕ) : 0 < (1 + r) ^ (k + 1) - 1 := by
  have h1 : (1 : ℚ) < 1 + r := by linarith
  have h2 : (1 : ℚ) < (1 + r) ^ (k + 1) := one_lt_pow₀ h1 (by omega)
  linarith

theorem denom_nonneg {r : ℚ} (hr : 0 ≤ r) (k : ℕ) : 0 ≤ (1 + r) ^ k - 1 := by
  have h1 : (1 : ℚ) ≤ 1 + r := by linarith
  have h2 : (1 : ℚ) ≤ (1 + r) ^ k := one_le_pow₀ h1
  linarith

/-- With one period remaining the recomputed payment clears the balance plus
one month of interest. -/
theorem pmt_one {r : ℚ} (hr : 0 ≤ r) (b : ℚ) : pmt r 1 (-b) = b * (1 + r) := by
  rcases eq_or_lt_of_le hr with h | h
  · rw [← h, pmt_zero_rate]
    norm_num
  · rw [pmt_pos_rate (ne_of_gt h)]
    have hne : r ≠ 0 := ne_of_gt h
    field_simp
    ring

/-- The principal component of a recomputed payment is non-negative. -/
theorem pmt_principal_nonneg {r b : ℚ} (hr : 0 ≤ r) (hb : 0 ≤ b) (k : ℕ) :
    0 ≤ pmt r (k + 1) (-b) - b * r := by
  rcases eq_or_lt_of_le hr with h | h
  · rw [← h, pmt_zero_rate]
    have hk : (0 : ℚ) < ((k : ℚ) + 1) := by positivity
    push_cast
    rw [mul_zero, sub_zero, neg_div, neg_neg]
    positivity
  · have hD := denom_pos h k
    have hEq : pmt r (k + 1) (-b) - b * r = b * r / ((1 + r) ^ (k + 1) - 1) := by
      rw [pmt_pos_rate (ne_of_gt h)]
      field_simp
      ring
    rw [hEq]
    positivity

/-- Closed form of the balance left after one recomputed payment. -/
theorem balance_step {r : ℚ} (hr : 0 < r) (k : ℕ) (b : ℚ) :
    b - (pmt r (k + 1) (-b) - b * r) =
      b * (1 + r) * ((1 + r) ^ k - 1) / ((1 + r) ^ (k + 1) - 1) := by
  have hD := denom_pos hr k
  rw [pmt_pos_rate (ne_of_gt hr)]
  field_simp
  ring

/-- The balance never goes negative before the clamp. -/
theorem balance_step_nonneg {r b : ℚ} (hr : 0 ≤ r) (hb : 0 ≤ b) (k : ℕ) :
    0 ≤ b - (pmt r (k + 1) (-b) - b * r) := by
  rcases eq_or_lt_of_le hr with h | h
  · rw [← h, pmt_zero_rate]
    have hk : (0 : ℚ) < ((k : ℚ) + 1) := by positivity
    push_cast
    rw [mul_zero, sub_zero, neg_div, neg_neg, sub_nonneg]
    rw [div_le_iff₀ hk]
    nlinarith
  · rw [balance_step h k b]
    have hD := denom_pos h k
    have hN := denom_nonneg (le_of_lt h) k
    positivity

/-- With one period remaining the post-payment balance is exactly zero. -/
theorem balance_last {r : ℚ} (hr : 0 ≤ r) (b : ℚ) :
    b - (pmt r 1 (-b) - b * r) = 0 := by
  rw [pmt_one hr]
  ring

/-- Payment invariance: recomputing the annuity payment on the remaining
balance over the remaining term reproduces the previous payment. -/
theorem pmt_next {r : ℚ} (hr : 0 ≤ r) (k : ℕ) (b : ℚ) :
    pmt r (k + 1) (-(b - (pmt r (k + 2) (-b) - b * r))) = pmt r (k + 2) (-b) := by
  rcases eq_or_lt_of_le hr with h | h
  · rw [← h]
    simp only [pmt_zero_rate]
    have hk1 : ((k : ℚ) + 1) ≠ 0 := by positivity
    have hk2 : ((k : ℚ) + 2) ≠ 0 := by positivity
    push_cast
    field_simp
    ring
  · have hD1 := denom_pos h k
    have hD2 : (0 : ℚ) < (1 + r) ^ (k + 2) - 1 := denom_pos h (k + 1)
    simp only [pmt_pos_rate (ne_of_gt h)]
    field_simp
    ring

/-! Structural lemmas about the amortization recursion. -/

theorem amortAux_succ (r : ℚ) (m : ℕ) (b : ℚ) (k : ℕ) :
    amortAux r m b (k + 1) =
      ⟨m, b * r, pmt r (k + 1) (-b) - b * r,
        max (b - (pmt r (k + 1) (-b) - b * r)) 0⟩ ::
        amortAux r (m + 1) (max (b - (pmt r (k + 1) (-b) - b * r)) 0) k := rfl

theorem amortFixedAux_succ (r p : ℚ) (m : ℕ) (b : ℚ) (k : ℕ) :
    amortFixedAux r p m b (k + 1) =
      ⟨m, b * r, p - b * r, max (b - (p - b * r)) 0⟩ ::
        amortFixedAux r p (m + 1) (max (b - (p - b * r)) 0) k := rfl

theorem amortAux_length (r : ℚ) : ∀ (k m : ℕ) (b : ℚ), (amortAux r m b k).length = k := by
  intro k
  induction k with
  | zero => intro m b; rfl
  | succ k ih =>
    intro m b
    rw [amortAux_succ]
    simp [ih]

/-- Under a non-negative rate and balance the clamp `max(balance, 0)` never
bites and the recursion steps to the exact remaining balance. -/
theorem amortAux_succ_of_nonneg {r b : ℚ} (hr : 0 ≤ r) (hb : 0 ≤ b) (m k : ℕ) :
    amortAux r m b (k + 1) =
      ⟨m, b * r, pmt r (k + 1) (-b) - b * r, b - (pmt r (k + 1) (-b) - b * r)⟩ ::
        amortAux r (m + 1) (b - (pmt r (k + 1) (-b) - b * r)) k := by
  rw [amortAux_succ, max_eq_left (balance_step_nonneg hr hb k)]

/-- The recomputed-payment ledger coincides with the ledger driven by the
fixed installment computed on the current balance over the whole remaining
term. -/
theorem amortAux_eq_fixed {r : ℚ} (hr : 0 ≤ r) :
    ∀ (k m : ℕ) {b : ℚ}, 0 ≤ b →
      amortAux r m b k = amortFixedAux r (pmt r k (-b)) m b k := by
  intro k
  induction k with
  | zero => intro m b _; rfl
  | succ k ih =>
    intro m b hb
    have hstep := balance_step_nonneg hr hb k
    rw [amortAux_succ_of_nonneg hr hb, amortFixedAux_succ,
      max_eq_left hstep]
    congr 1
    cases k with
    | zero => rfl
    | succ j =>
      rw [ih (m + 1) hstep]
      congr 1
      exact pmt_next hr j b

theorem amortFixedAux_payment (r p : ℚ) :
    ∀ (k m : ℕ) (b : ℚ) (e : Entry), e ∈ amortFixedAux r p m b k →
      e.interest + e.principalPaid = p := by
  intro k
  induction k with
  | zero => intro m b e he; cases he
  | succ k ih =>
    intro m b e he
    rw [amortFixedAux_succ] at he
    rcases List.mem_cons.1 he with h | h
    · rw [h]; ring
    · exact ih (m + 1) _ e h

theorem amortAux_balance_nonneg (r : ℚ) :
    ∀ (k m : ℕ) (b : ℚ) (e : Entry), e ∈ amortAux r m b k → 0 ≤ e.balance := by
  intro k
  induction k with
  | zero => intro m b e he; cases he
  | succ k ih =>
    intro m b e he
    rw [amortAux_succ] at he
    rcases List.mem_cons.1 he with h | h
    · rw [h]; exact le_max_right _ _
    · exact ih (m + 1) _ e h

theorem amortAux_balance_le {r : ℚ} (hr : 0 ≤ r) :
    ∀ (k m : ℕ) {b : ℚ}, 0 ≤ b →
      ∀ e ∈ amortAux r m b k, e.balance ≤ b := by
  intro k
  induction k with
  | zero => intro m b _ e he; cases he
  | succ k ih =>
    intro m b hb e he
    have hpp := pmt_principal_nonneg hr hb k
    have hb2le : max (b - (pmt r (k + 1) (-b) - b * r)) 0 ≤ b :=
      max_le (by linarith) hb
    rw [amortAux_succ] at he
    rcases List.mem_cons.1 he with h | h
    · rw [h]; exact hb2le
    · exact le_trans (ih (m + 1) (le_max_right _ _) e h) hb2le

theorem amortAux_chain {r : ℚ} (hr : 0 ≤ r) :
    ∀ (k m : ℕ) {b : ℚ}, 0 ≤ b →
      List.Chain' (fun x y : Entry => y.balance ≤ x.balance) (amortAux r m b k) := by
  intro k
  induction k with
  | zero => intro m b _; exact List.chain'_nil
  | succ k ih =>
    intro m b hb
    rw [amortAux_succ]
    rw [List.chain'_cons']
    refine ⟨fun y hy => ?h1, ih (m + 1) (le_max_right _ _)⟩
    exact amortAux_balance_le hr k (m + 1) (le_max_right _ _) y (List.mem_of_mem_head? hy)

theorem amortAux_sum_principal {r : ℚ} (hr : 0 ≤ r) :
    ∀ (k m : ℕ) {b : ℚ}, 0 ≤ b →
      ((amortAux r m b (k + 1)).map Entry.principalPaid).sum = b := by
  intro k
  induction k with
  | zero =>
    intro m b hb
    rw [amortAux_succ]
    have ht : amortAux r (m + 1) (max (b - (pmt r 1 (-b) - b * r)) 0) 0 = [] := rfl
    rw [ht, pmt_one hr]
    simp
    ring
  | succ k ih =>
    intro m b hb
    have hstep := balance_step_nonneg hr hb (k + 1)
    rw [amortAux_succ_of_nonneg hr hb]
    simp only [List.map_cons, List.sum_cons]
    rw [ih (m + 1) hstep]
    ring

/-- Tail of a cons has the same last element when nonempty. -/
theorem getLastQ_cons_of_ne_nil (a : Entry) {l : List Entry} (h : l ≠ []) :
    (a :: l).getLast? = l.getLast? := by
  cases l with
  | nil => exact absurd rfl h
  | cons x xs => exact List.getLast?_cons_cons

theorem amortAux_last_balance {r : ℚ} (hr : 0 ≤ r) :
    ∀ (k m : ℕ) {b : ℚ}, 0 ≤ b →
      ((amortAux r m b (k + 1)).getLast?).map Entry.balance = some 0 := by
  intro k
  induction k with
  | zero =>
    intro m b hb
    rw [amortAux_succ]
    have h0 := balance_last hr b
    have ht : amortAux r (m + 1) (max (b - (pmt r 1 (-b) - b * r)) 0) 0 = [] := rfl
    rw [ht]
    simp [h0]
  | succ k ih =>
    intro m b hb
    have hstep := balance_step_nonneg hr hb (k + 1)
    rw [amortAux_succ_of_nonneg hr hb]
    have hne : amortAux r (m + 1) (b - (pmt r (k + 2) (-b) - b * r)) (k + 1) ≠ [] := by
      intro hnil
      have hl := amortAux_length r (k + 1) (m + 1) (b - (pmt r (k + 2) (-b) - b * r))
      rw [hnil] at hl
      simp at hl
    rw [getLastQ_cons_of_ne_nil _ hne]
    exact ih (m + 1) hstep

/-- C1: for every amortization ledger produced from a positive principal, a
non-negative annual rate and a positive tenure in years, the final monthly
entry's balance is exactly zero and the principal paid over all entries sums
to the initial principal — exactly, in the rational semantics, hence within
the claimed floating tolerance of 1 currency unit. -/
theorem claim1_final_balance_and_principal_total
    (principal annualRate : ℚ) (years : ℕ)
    (hP : 0 < principal) (ha : 0 ≤ annualRate) (hy : 0 < years) :
    ((amortization_schedule principal annualRate years).getLast?).map Entry.balance
        = some 0 ∧
    ((amortization_schedule principal annualRate years).map Entry.principalPaid).sum
        = principal ∧
    |((amortization_schedule principal annualRate years).map Entry.principalPaid).sum
        - principal| ≤ 1 := by
  have hr : 0 ≤ annualRate / 12 / 100 := by positivity
  have hb : 0 ≤ principal := le_of_lt hP
  have hk : years * 12 = (years * 12 - 1) + 1 := by omega
  unfold amortization_schedule
  rw [hk]
  refine ⟨amortAux_last_balance hr (years * 12 - 1) 1 hb,
    amortAux_sum_principal hr (years * 12 - 1) 1 hb, ?htol⟩
  rw [amortAux_sum_principal hr (years * 12 - 1) 1 hb]
  simp

theorem claim1_witness :
    ((0 : ℚ) < 1000 ∧ (0 : ℚ) ≤ 12 ∧ 0 < 1) ∧
    (((amortization_schedule 1000 12 1).getLast?).map Entry.balance = some 0 ∧
     ((amortization_schedule 1000 12 1).map Entry.principalPaid).sum = 1000 ∧
     |((amortization_schedule 1000 12 1).map Entry.principalPaid).sum - 1000| ≤ 1) :=
  ⟨⟨by norm_num, by norm_num, by norm_num⟩,
    claim1_final_balance_and_principal_total 1000 12 1 (by norm_num) (by norm_num)
      (by norm_num)⟩

/-- C10: the per-period payment recomputed each month as the annuity payment
on the remaining balance over the remaining periods produces exactly the
ledger of the fixed installment computed once over the full term. -/
theorem claim10_recomputed_equals_fixed
    (principal annualRate : ℚ) (years : ℕ)
    (hP : 0 < principal) (ha : 0 ≤ annualRate) (hy : 0 < years) :
    amortization_schedule principal annualRate years
      = fixedLedger principal annualRate years := by
  have hr : 0 ≤ annualRate / 12 / 100 := by positivity
  exact amortAux_eq_fixed hr (years * 12) 1 (le_of_lt hP)

theorem claim10_witness :
    ((0 : ℚ) < 1000 ∧ (0 : ℚ) ≤ 12 ∧ 0 < 1) ∧
    amortization_schedule 1000 12 1 = fixedLedger 1000 12 1 :=
  ⟨⟨by norm_num, by norm_num, by norm_num⟩,
    claim10_recomputed_equals_fixed 1000 12 1 (by norm_num) (by norm_num) (by norm_num)⟩

/-- C9: in every amortization ledger each entry satisfies
`principal_paid + interest_paid = installment` — exactly, with installment
the fixed EMI of the loan — and the balance is monotonically non-increasing
across periods and never negative. -/
theorem claim9_entry_invariants
    (principal annualRate : ℚ) (years : ℕ)
    (hP : 0 < principal) (ha : 0 ≤ annualRate) (hy : 0 < years) :
    (∀ e ∈ amortization_schedule principal annualRate years,
        e.principalPaid + e.interest = emi principal annualRate years) ∧
    List.Chain' (fun x y : Entry => y.balance ≤ x.balance)
        (amortization_schedule principal annualRate years) ∧
    (∀ e ∈ amortization_schedule principal annualRate years, 0 ≤ e.balance) := by
  have hr : 0 ≤ annualRate / 12 / 100 := by positivity
  have hb : 0 ≤ principal := le_of_lt hP
  refine ⟨?h1, amortAux_chain hr (years * 12) 1 hb,
    fun e he => amortAux_balance_nonneg _ (years * 12) 1 principal e he⟩
  intro e he
  have he2 : e ∈ amortFixedAux (annualRate / 12 / 100)
      (pmt (annualRate / 12 / 100) (years * 12) (-principal)) 1 principal (years * 12) := by
    rw [← amortAux_eq_fixed hr (years * 12) 1 hb]
    exact he
  have := amortFixedAux_payment (annualRate / 12 / 100)
    (pmt (annualRate / 12 / 100) (years * 12) (-principal)) (years * 12) 1 principal e he2
  rw [add_comm] at this
  exact this

theorem claim9_witness :
    ((0 : ℚ) < 1000 ∧ (0 : ℚ) ≤ 12 ∧ 0 < 1) ∧
    ((∀ e ∈ amortization_schedule 1000 12 1,
        e.principalPaid + e.interest = emi 1000 12 1) ∧
     List.Chain' (fun x y : Entry => y.balance ≤ x.balance)
        (amortization_schedule 1000 12 1) ∧
     (∀ e ∈ amortization_schedule 1000 12 1, 0 ≤ e.balance)) :=
  ⟨⟨by norm_num, by norm_num, by norm_num⟩,
    claim9_entry_invariants 1000 12 1 (by norm_num) (by norm_num) (by norm_num)⟩

/-- The EMI of scenario A evaluated exactly: 26,224.88... rounds to 26,225. -/
theorem emi_scenarioA_round : round (emi 3000000 (86 / 10) 20) = 26225 := by
  rw [round_eq, Int.floor_eq_iff]
  constructor
  · norm_num [emi, pmt]
  · norm_num [emi, pmt]

/-- C2, counterexample: at principal 3,000,000, annual rate 8.6 and tenure
240 months the EMI of src/app.py line 79 rounds to 26,225, not the claimed
26,234. -/
theorem claim2_counterexample :
    round (emi 3000000 (86 / 10) 20) = 26225 ∧ (26225 : ℤ) ≠ 26234 := by
  exact ⟨emi_scenarioA_round, by decide⟩

/-- C2, amended: the installment follows the fixed-payment annuity formula
with `r = annual_rate/12/100` (and equals `principal / term_months` when the
rate is zero); for principal 3,000,000 at 8.6 over 240 months the EMI rounds
to 26,225 (not 26,234), the first-month interest is exactly 21,500, and the
first-month principal is the EMI minus 21,500, about 4,725 (not 4,734). -/
theorem claim2_amended :
    (∀ (loanAmt annualRate : ℚ) (yrs : ℕ),
        emi loanAmt annualRate yrs =
          if annualRate = 0 then loanAmt / ((yrs * 12 : ℕ) : ℚ)
          else loanAmt * (annualRate / 12 / 100) * (1 + annualRate / 12 / 100) ^ (yrs * 12) /
            ((1 + annualRate / 12 / 100) ^ (yrs * 12) - 1)) ∧
    round (emi 3000000 (86 / 10) 20) = 26225 ∧
    ((amortization_schedule 3000000 (86 / 10) 20).head?).map Entry.interest
        = some 21500 ∧
    ((amortization_schedule 3000000 (86 / 10) 20).head?).map Entry.principalPaid
        = some (emi 3000000 (86 / 10) 20 - 21500) ∧
    4724 < emi 3000000 (86 / 10) 20 - 21500 ∧
    emi 3000000 (86 / 10) 20 - 21500 < 4725 := by
  have hhead : amortization_schedule 3000000 (86 / 10) 20 =
      ⟨1, 3000000 * ((86 : ℚ) / 10 / 12 / 100),
        pmt ((86 : ℚ) / 10 / 12 / 100) 240 (-3000000)
          - 3000000 * ((86 : ℚ) / 10 / 12 / 100),
        max (3000000 - (pmt ((86 : ℚ) / 10 / 12 / 100) 240 (-3000000)
          - 3000000 * ((86 : ℚ) / 10 / 12 / 100))) 0⟩ ::
        amortAux ((86 : ℚ) / 10 / 12 / 100) 2
          (max (3000000 - (pmt ((86 : ℚ) / 10 / 12 / 100) 240 (-3000000)
            - 3000000 * ((86 : ℚ) / 10 / 12 / 100))) 0) 239 := rfl
  refine ⟨?hformula, emi_scenarioA_round, ?hint, ?hpp, ?hlow, ?hhigh⟩
  case hformula =>
    intro loanAmt annualRate yrs
    by_cases ha : annualRate = 0
    · simp [emi, pmt, ha]
      ring
    · have hrne : annualRate / 12 / 100 ≠ 0 := by
        intro h
        apply ha
        field_simp at h
        exact h
      rw [emi, pmt_pos_rate hrne, if_neg ha]
      ring
  case hint =>
    rw [hhead]
    simp only [List.head?_cons, Option.map_some]
    norm_num
  case hpp =>
    rw [hhead]
    simp only [List.head?_cons, Option.map_some]
    have h1 : (3000000 : ℚ) * ((86 : ℚ) / 10 / 12 / 100) = 21500 := by norm_num
    rw [h1]
    rfl
  case hlow =>
    have h : emi 3000000 (86 / 10) 20 = pmt ((86 : ℚ) / 10 / 12 / 100) 240 (-3000000) := rfl
    rw [h]
    norm_num [pmt]
  case hhigh =>
    have h : emi 3000000 (86 / 10) 20 = pmt ((86 : ℚ) / 10 / 12 / 100) 240 (-3000000) := rfl
    rw [h]
    norm_num [pmt]

/-- C4, counterexample: on the all-negative series the script's
`npf.irr(cashflows)` call (default `raise_exceptions=False`) returns
normally with NaN (no numeric rate); it does not raise any error. -/
theorem claim4_counterexample :
    irr irrSolveStub false [-100, -50, -20] = Except.ok none ∧
    irr irrSolveStub false [-100, -50, -20] ≠ Except.error NpfError.noRealSolution := by
  have h : irr irrSolveStub false [-100, -50, -20] = Except.ok none := by
    norm_num [irr, sameSign, irrSolveStub]
  refine ⟨h, ?hne⟩
  rw [h]
  intro hcontra
  exact Except.noConfusion hcontra

/-- C4, amended: for every nonempty all-negative cash-flow series the IRR
call returns NaN — no exception is raised and no numeric rate (zero or
otherwise) is returned — whatever the abstracted root finder would do. -/
theorem claim4_amended (solve : List ℚ → Option ℚ) (values : List ℚ)
    (hne : values ≠ []) (hneg : ∀ x ∈ values, x < 0) :
    irr solve false values = Except.ok none := by
  cases values with
  | nil => exact absurd rfl hne
  | cons v vs =>
    have hv : v < 0 := hneg v (List.mem_cons_self v vs)
    have hss : sameSign (v :: vs) = true := by
      simp only [sameSign]
      rw [if_neg (not_lt.2 (le_of_lt hv))]
      rw [List.all_eq_true]
      intro x hx
      simpa using hneg x hx
    simp [irr, hss]

theorem claim4_witness :
    (([-100, -50, -20] : List ℚ) ≠ [] ∧ (∀ x ∈ ([-100, -50, -20] : List ℚ), x < 0)) ∧
    irr irrSolveStub false [-100, -50, -20] = Except.ok none :=
  ⟨⟨by simp, by norm_num⟩,
    claim4_amended irrSolveStub [-100, -50, -20] (by simp) (by norm_num)⟩

/-- Scaled sums used by the disbursement schedule. -/
theorem sum_map_scale (c : ℚ) : ∀ l : List ℚ,
    (l.map (fun pct => c * (pct / 100))).sum = c * l.sum / 100 := by
  intro l
  induction l with
  | nil => simp
  | cons x xs ih =>
    simp only [List.map_cons, List.sum_cons, ih]
    ring

/-- C5, counterexample: the schedule of src/app.py lines 83-86 splits the
loan amount (price minus down payment), not the total price, and emits the
timing in years (`month / 12`): with the default 30 percent down payment on
price 8,500,000 the amounts are 595,000, 1,190,000, 1,785,000, 2,380,000 —
not the claimed 850,000, 1,700,000, 2,550,000, 3,400,000. -/
theorem claim5_counterexample :
    disbursement_schedule (loan_amt 8500000 30) [10, 20, 30, 40] [0, 1, 9, 36]
      = [(0, 595000), (1 / 12, 1190000), (3 / 4, 1785000), (3, 2380000)] ∧
    (595000 : ℚ) ≠ 850000 := by
  constructor
  · norm_num [disbursement_schedule, loan_amt, down_payment_amt]
  · norm_num

/-- C5, amended: each tranche receives `loan_amt * percentage / 100` — so
with percentages summing to exactly 100 the amounts sum to the loan amount,
not the total price — and the `(month/12, amount)` sequence keeps the input
order, which is sorted by time whenever the input timings are ascending. -/
theorem disbursement_schedule_map_snd (loanAmt : ℚ) :
    ∀ (splits : List ℚ) (timing : List ℕ), splits.length ≤ timing.length →
      (disbursement_schedule loanAmt splits timing).map Prod.snd
        = splits.map (fun pct => loanAmt * (pct / 100)) := by
  intro splits
  induction splits with
  | nil => intro timing _; simp [disbursement_schedule]
  | cons x xs ih =>
    intro timing hlen
    cases timing with
    | nil => simp at hlen
    | cons t ts =>
      simp only [disbursement_schedule, List.zip_cons_cons, List.map_cons] at ih ⊢
      have := ih ts (by simpa using hlen)
      simp only [disbursement_schedule] at this
      rw [this]

theorem disbursement_schedule_map_fst (loanAmt : ℚ) :
    ∀ (splits : List ℚ) (timing : List ℕ), timing.length ≤ splits.length →
      (disbursement_schedule loanAmt splits timing).map Prod.fst
        = timing.map (fun m : ℕ => (m : ℚ) / 12) := by
  intro splits
  induction splits with
  | nil =>
    intro timing hlen
    have : timing = [] := List.length_eq_zero.1 (by simpa using hlen)
    simp [this, disbursement_schedule]
  | cons x xs ih =>
    intro timing hlen
    cases timing with
    | nil => simp [disbursement_schedule]
    | cons t ts =>
      simp only [disbursement_schedule, List.zip_cons_cons, List.map_cons] at ih ⊢
      have := ih ts (by simpa using hlen)
      simp only [disbursement_schedule] at this
      rw [this]

theorem claim5_amended (loanAmt : ℚ) (splits : List ℚ) (timing : List ℕ)
    (hlen : splits.length = timing.length) (hsum : splits.sum = 100)
    (hsorted : List.Chain' (· ≤ ·) timing) :
    ((disbursement_schedule loanAmt splits timing).map Prod.snd)
        = splits.map (fun pct => loanAmt * (pct / 100)) ∧
    ((disbursement_schedule loanAmt splits timing).map Prod.snd).sum = loanAmt ∧
    List.Chain' (· ≤ ·)
        ((disbursement_schedule loanAmt splits timing).map Prod.fst) := by
  have hsnd := disbursement_schedule_map_snd loanAmt splits timing (le_of_eq hlen)
  refine ⟨hsnd, ?hsum2, ?hchain⟩
  case hsum2 =>
    rw [hsnd, sum_map_scale, hsum]
    field_simp
  case hchain =>
    rw [disbursement_schedule_map_fst loanAmt splits timing (ge_of_eq hlen)]
    rw [List.chain'_map]
    refine hsorted.imp ?hmono
    intro a b hab
    have hc : (a : ℚ) ≤ (b : ℚ) := by exact_mod_cast hab
    linarith

theorem claim5_witness :
    (([(10 : ℚ), 20, 30, 40].length = [0, 1, 9, 36].length ∧
      ([(10 : ℚ), 20, 30, 40]).sum = 100 ∧
      List.Chain' (· ≤ ·) [0, 1, 9, 36]) ∧
     (((disbursement_schedule (loan_amt 8500000 30) [10, 20, 30, 40] [0, 1, 9, 36]).map
          Prod.snd)
        = [(10 : ℚ), 20, 30, 40].map (fun pct => loan_amt 8500000 30 * (pct / 100)) ∧
      ((disbursement_schedule (loan_amt 8500000 30) [10, 20, 30, 40] [0, 1, 9, 36]).map
          Prod.snd).sum = loan_amt 8500000 30 ∧
      List.Chain' (· ≤ ·)
        ((disbursement_schedule (loan_amt 8500000 30) [10, 20, 30, 40] [0, 1, 9, 36]).map
          Prod.fst))) :=
  ⟨⟨by norm_num, by norm_num, by norm_num [List.chain'_cons]⟩,
    claim5_amended (loan_amt 8500000 30) [10, 20, 30, 40] [0, 1, 9, 36]
      (by norm_num) (by norm_num) (by norm_num [List.chain'_cons])⟩

/-- C6, counterexample: tranche percentages summing to 60 trigger only the
sidebar warning of src/app.py line 51; the disbursement schedule is still
produced from the same splits. -/
theorem claim6_counterexample :
    paymentSplitsWarning [10, 20, 30] = true ∧
    disbursement_schedule 70 [10, 20, 30] [0, 1, 2] ≠ [] := by
  constructor
  · norm_num [paymentSplitsWarning]
  · simp [disbursement_schedule]

/-- C6, amended: when the splits do not sum to 100 within 0.01 the script
shows a warning, but nothing fails: the disbursement schedule (and with it
every downstream series) is computed exactly as otherwise, one event per
zipped split/timing pair. -/
theorem claim6_amended (loanAmt : ℚ) (splits : List ℚ) (timing : List ℕ)
    (hbad : (1 : ℚ) / 100 < |splits.sum - 100|) :
    paymentSplitsWarning splits = true ∧
    (disbursement_schedule loanAmt splits timing).length
        = min splits.length timing.length := by
  constructor
  · simp only [paymentSplitsWarning, decide_eq_true_eq]
    exact hbad
  · simp [disbursement_schedule]

theorem claim6_witness :
    ((1 : ℚ) / 100 < |([(10 : ℚ), 20, 30]).sum - 100| ∧
     (paymentSplitsWarning [10, 20, 30] = true ∧
      (disbursement_schedule 70 [10, 20, 30] [0, 1, 2]).length
        = min ([(10 : ℚ), 20, 30]).length [0, 1, 2].length)) :=
  ⟨by norm_num, claim6_amended 70 [10, 20, 30] [0, 1, 2] (by norm_num)⟩

/-! Lemmas about the net-rent loop. -/

theorem netRentAux_length (uc : Bool) (cy : ℕ) (g : ℚ) :
    ∀ (n s : ℕ) (cur : ℚ), (netRentAux uc cy g n s cur).length = n := by
  intro n
  induction n with
  | zero => intro s cur; rfl
  | succ n ih =>
    intro s cur
    by_cases hc : uc = true ∧ s < cy
    · simp only [netRentAux, if_pos hc, List.length_cons, ih]
    · simp only [netRentAux, if_neg hc, List.length_cons, ih]

/-- Once past construction the rent series is a pure geometric escalation. -/
theorem netRentAux_post (uc : Bool) (cy : ℕ) (g : ℚ) :
    ∀ (n s : ℕ) (cur : ℚ), (uc = true → cy ≤ s) →
      ∀ j, j < n →
        (netRentAux uc cy g n s cur).getD j 0 = cur * (1 + g / 100) ^ j := by
  intro n
  induction n with
  | zero => intro s cur _ j hj; exact absurd hj (Nat.not_lt_zero j)
  | succ n ih =>
    intro s cur hs j hj
    have hcond : ¬(uc = true ∧ s < cy) := by
      rintro ⟨h1, h2⟩
      exact absurd (hs h1) (by omega)
    rw [show netRentAux uc cy g (n + 1) s cur
        = cur :: netRentAux uc cy g n (s + 1) (cur * (1 + g / 100)) from by
      simp only [netRentAux, if_neg hcond]]
    cases j with
    | zero => simp
    | succ j =>
      simp only [List.getD_cons_succ]
      rw [ih (s + 1) (cur * (1 + g / 100)) (fun h => le_trans (hs h) (by omega)) j
        (by omega)]
      ring

/-- During construction the rent is zero and the escalation clock only
starts at possession. -/
theorem netRentAux_pre (cy : ℕ) (g : ℚ) :
    ∀ (n s : ℕ) (cur : ℚ), s ≤ cy →
      ∀ j, j < n →
        (netRentAux true cy g n s cur).getD j 0 =
          if s + j < cy then 0 else cur * (1 + g / 100) ^ (s + j - cy) := by
  intro n
  induction n with
  | zero => intro s cur _ j hj; exact absurd hj (Nat.not_lt_zero j)
  | succ n ih =>
    intro s cur hs j hj
    by_cases hscy : s < cy
    · rw [show netRentAux true cy g (n + 1) s cur
          = 0 :: netRentAux true cy g n (s + 1) cur from by
        simp only [netRentAux]
        rw [if_pos (⟨trivial, hscy⟩ : True ∧ s < cy)]]
      cases j with
      | zero =>
        simp only [List.getD_cons_zero]
        rw [if_pos (by omega)]
      | succ j =>
        simp only [List.getD_cons_succ]
        rw [ih (s + 1) cur (by omega) j (by omega)]
        have harr : s + 1 + j = s + (j + 1) := by omega
        rw [harr]
    · have hseq : s = cy := le_antisymm hs (not_lt.1 hscy)
      rw [show netRentAux true cy g (n + 1) s cur
          = cur :: netRentAux true cy g n (s + 1) (cur * (1 + g / 100)) from by
        simp only [netRentAux]
        rw [if_neg (fun hcontra : True ∧ s < cy => hscy hcontra.2)]]
      cases j with
      | zero =>
        simp only [List.getD_cons_zero]
        rw [if_neg (by omega), hseq]
        simp
      | succ j =>
        simp only [List.getD_cons_succ]
        rw [netRentAux_post true cy g n (s + 1) (cur * (1 + g / 100))
          (fun _ => by omega) j (by omega)]
        rw [if_neg (by omega)]
        have hexp : s + (j + 1) - cy = j + 1 := by omega
        rw [hexp]
        ring

/-- C7, counterexample: with monthly rent 1,000 and annual maintenance
20,000 the net rent series of src/app.py lines 96-103 holds the negative
value -8,000 — rent net of maintenance is not floored at zero. -/
theorem claim7_counterexample :
    net_rent_vals true 0 1 1000 20000 0 = [-8000] ∧ ((-8000 : ℚ) < 0) := by
  constructor
  · norm_num [net_rent_vals, netRentAux]
  · norm_num

/-- C7, amended: the series is annual, not monthly; an entry is zero for
every year strictly before the construction-completion year, and from then
on equals `(rent_monthly*12 - annual_maintenance) * (1+growth/100)^(years
since possession)`, with no flooring at zero (it is negative whenever the
annual maintenance exceeds the annual rent). -/
theorem claim7_amended (uc : Bool) (cy h : ℕ) (rm am g : ℚ) :
    (net_rent_vals uc cy h rm am g).length = h ∧
    ∀ i, i < h →
      (net_rent_vals uc cy h rm am g).getD i 0 =
        if uc = true ∧ i < cy then 0
        else (rm * 12 - am) * (1 + g / 100) ^ (i - if uc = true then cy else 0) := by
  refine ⟨netRentAux_length uc cy g h 0 _, ?hget⟩
  intro i hi
  cases uc with
  | false =>
    rw [net_rent_vals, netRentAux_post false cy g h 0 _ (fun hcontra => by cases hcontra) i hi]
    simp
  | true =>
    rw [net_rent_vals, netRentAux_pre cy g h 0 _ (Nat.zero_le cy) i hi]
    simp only [Nat.zero_add]
    simp

theorem claim7_witness :
    ((net_rent_vals true 1 3 100 10 10).length = 3) ∧
    ((2 : ℕ) < 3) ∧
    ((net_rent_vals true 1 3 100 10 10).getD 2 0 =
      if true = true ∧ 2 < 1 then 0
      else ((100 : ℚ) * 12 - 10) * (1 + 10 / 100) ^ (2 - if true = true then 1 else 0)) :=
  ⟨(claim7_amended true 1 3 100 10 10).1, by norm_num,
    (claim7_amended true 1 3 100 10 10).2 2 (by norm_num)⟩

/-! Cash-flow series lemmas. -/

theorem final_property_value_eq (price a : ℚ) (h : ℕ) (hh : 1 ≤ h) :
    final_property_value price a h = price * (1 + a / 100) ^ h := by
  obtain ⟨m, rfl⟩ : ∃ m, h = m + 1 := ⟨h - 1, by omega⟩
  unfold final_property_value property_vals
  rw [List.range_succ, List.map_append]
  simp

theorem sum_dropLast_getLastD (l : List ℚ) (h : l ≠ []) :
    l.dropLast.sum + l.getLastD 0 = l.sum := by
  conv_rhs => rw [← List.dropLast_append_getLast h]
  rw [List.sum_append]
  rw [List.getLastD_eq_getLast?, List.getLast?_eq_getLast l h]
  simp

/-- C3, counterexample: in the scenario price 100, down payment 30 percent,
zero rate, one-year tenure and horizon, monthly rent 5, annual maintenance
10, one 100-percent tranche at month 0, the cash-flow series of src/app.py
lines 118-121 is `[-30, 150]`: its outflow total is the 30 down payment,
while disbursed principal (70) plus interest paid (0) plus maintenance (10)
is 80 — the outflow reconciliation identity fails. -/
theorem claim3_counterexample :
    totalOutflows (cashflows (down_payment_amt 100 30)
        (net_rent_vals true 0 1 5 10 0)
        (final_property_value 100 0 1)) = 30 ∧
    ((disbursement_schedule (loan_amt 100 30) [100] [0]).map Prod.snd).sum
        + interest_paid (emi (loan_amt 100 30) 0 1) 1 1 (loan_amt 100 30)
        + 10 * 1 = 80 ∧
    (30 : ℚ) ≠ 80 := by
  refine ⟨?h1, ?h2, by norm_num⟩
  case h1 =>
    norm_num [totalOutflows, cashflows, down_payment_amt, net_rent_vals, netRentAux,
      final_property_value, property_vals, List.range_succ, max_def]
  case h2 =>
    norm_num [disbursement_schedule, loan_amt, down_payment_amt, interest_paid, emi, pmt]

/-- C3, amended: the inflow side of the series reconciles — total inflows
equal total net rent plus the terminal value, and the terminal value is
`price * (1+appreciation/100)^horizon` — but the outflow side does not:
the series' only outflow is the down payment (no disbursement, EMI or
maintenance outflows appear in it), whenever the net rents are
non-negative. -/
theorem claim3_amended (dp fv : ℚ) (rents : List ℚ)
    (hdp : 0 ≤ dp) (hrents : ∀ x ∈ rents, 0 ≤ x) (hfv : 0 ≤ fv)
    (hne : rents ≠ []) :
    totalOutflows (cashflows dp rents fv) = dp ∧
    totalInflows (cashflows dp rents fv) = rents.sum + fv ∧
    (∀ (price a : ℚ) (hy : ℕ), 1 ≤ hy →
      final_property_value price a hy = price * (1 + a / 100) ^ hy) := by
  have hlast_mem : rents.getLastD 0 ∈ rents := by
    rw [List.getLastD_eq_getLast?, List.getLast?_eq_getLast rents hne]
    simp only [Option.getD_some]
    exact List.getLast_mem hne
  have hlast : 0 ≤ rents.getLastD 0 := hrents _ hlast_mem
  refine ⟨?hout, ?hin, fun price a hy hhy => final_property_value_eq price a hy hhy⟩
  case hout =>
    unfold totalOutflows cashflows
    rw [List.map_cons, List.sum_cons, List.map_append, List.sum_append]
    have h1 : max (- -dp) 0 = dp := by rw [neg_neg]; exact max_eq_left hdp
    have h2 : (rents.dropLast.map fun x => max (-x) 0).sum = 0 := by
      apply List.sum_eq_zero
      intro y hy
      rw [List.mem_map] at hy
      obtain ⟨x, hx, rfl⟩ := hy
      have hx0 : 0 ≤ x := hrents x (List.dropLast_subset _ hx)
      rw [max_eq_right (neg_nonpos.2 hx0)]
    have h3 : ([rents.getLastD 0 + fv].map fun x => max (-x) 0).sum = 0 := by
      simp only [List.map_cons, List.map_nil, List.sum_cons, List.sum_nil]
      rw [max_eq_right (neg_nonpos.2 (by linarith))]
      ring
    rw [h1, h2, h3]
    ring
  case hin =>
    unfold totalInflows cashflows
    rw [List.map_cons, List.sum_cons, List.map_append, List.sum_append]
    have h1 : max (-dp) 0 = 0 := max_eq_right (neg_nonpos.2 hdp)
    have h2 : (rents.dropLast.map fun x => max x 0) = rents.dropLast.map id := by
      apply List.map_congr_left
      intro x hx
      exact max_eq_left (hrents x (List.dropLast_subset _ hx))
    have h3 : ([rents.getLastD 0 + fv].map fun x => max x 0).sum
        = rents.getLastD 0 + fv := by
      simp only [List.map_cons, List.map_nil, List.sum_cons, List.sum_nil]
      rw [max_eq_left (by linarith)]
      ring
    rw [h1, h2, h3, List.map_id]
    have h4 := sum_dropLast_getLastD rents hne
    linarith

theorem claim3_witness :
    ((0 : ℚ) ≤ 30 ∧ (∀ x ∈ ([50] : List ℚ), 0 ≤ x) ∧ (0 : ℚ) ≤ 100 ∧
      ([50] : List ℚ) ≠ []) ∧
    (totalOutflows (cashflows 30 [50] 100) = 30 ∧
     totalInflows (cashflows 30 [50] 100) = ([50] : List ℚ).sum + 100 ∧
     (∀ (price a : ℚ) (hy : ℕ), 1 ≤ hy →
        final_property_value price a hy = price * (1 + a / 100) ^ hy)) :=
  ⟨⟨by norm_num, by norm_num, by norm_num, by simp⟩,
    claim3_amended 30 100 [50] (by norm_num) (by norm_num) (by norm_num) (by simp)⟩

/-! Annual-aggregation lemmas. -/

theorem toAnnual_cons (e : Entry) (rest : List Entry) :
    toAnnual (e :: rest) =
      ⟨yearOf e.month, ((e :: rest.take 11).map Entry.interest).sum,
        ((e :: rest.take 11).map Entry.principalPaid).sum,
        ((e :: rest.take 11).getLast (by simp)).balance⟩ :: toAnnual (rest.drop 11) := by
  rw [toAnnual]

theorem map_getLastD (f : Entry → ℚ) (l : List Entry) (h : l ≠ []) :
    (l.map f).getLastD 0 = f (l.getLast h) := by
  rw [List.getLastD_eq_getLast?, List.getLast?_map, List.getLast?_eq_getLast l h]
  rfl

theorem toAnnual_sum_interest : ∀ l : List Entry,
    ((toAnnual l).map Entry.interest).sum = (l.map Entry.interest).sum := by
  intro l
  induction l using toAnnual.induct with
  | case1 => rw [toAnnual]
  | case2 e rest ih =>
    rw [toAnnual_cons, List.map_cons, List.sum_cons, ih]
    conv_rhs => rw [show e :: rest = (e :: rest.take 11) ++ rest.drop 11 from by
      rw [List.cons_append, List.take_append_drop]]
    rw [List.map_append, List.sum_append]

theorem toAnnual_sum_principal : ∀ l : List Entry,
    ((toAnnual l).map Entry.principalPaid).sum = (l.map Entry.principalPaid).sum := by
  intro l
  induction l using toAnnual.induct with
  | case1 => rw [toAnnual]
  | case2 e rest ih =>
    rw [toAnnual_cons, List.map_cons, List.sum_cons, ih]
    conv_rhs => rw [show e :: rest = (e :: rest.take 11) ++ rest.drop 11 from by
      rw [List.cons_append, List.take_append_drop]]
    rw [List.map_append, List.sum_append]

theorem toAnnual_length : ∀ l : List Entry,
    (toAnnual l).length = (l.length + 11) / 12 := by
  intro l
  induction l using toAnnual.induct with
  | case1 => rw [toAnnual]; rfl
  | case2 e rest ih =>
    rw [toAnnual_cons, List.length_cons, ih]
    simp only [List.length_drop, List.length_cons]
    omega

theorem toAnnual_getD : ∀ (l : List Entry) (k : ℕ), k < (toAnnual l).length →
    (toAnnual l).getD k noEntry =
      ⟨yearOf (((l.drop (12 * k)).map Entry.month).headD 0),
        (((l.drop (12 * k)).take 12).map Entry.interest).sum,
        (((l.drop (12 * k)).take 12).map Entry.principalPaid).sum,
        (((l.drop (12 * k)).take 12).map Entry.balance).getLastD 0⟩ := by
  intro l
  induction l using toAnnual.induct with
  | case1 =>
    intro k hk
    rw [toAnnual] at hk
    exact absurd hk (by simp)
  | case2 e rest ih =>
    intro k hk
    rw [toAnnual_cons]
    cases k with
    | zero =>
      rw [List.getD_cons_zero]
      have hblock : (e :: rest).take 12 = e :: rest.take 11 := rfl
      rw [Nat.mul_zero, List.drop_zero, hblock,
        map_getLastD Entry.balance (e :: rest.take 11) (by simp)]
      simp
    | succ k =>
      rw [List.getD_cons_succ]
      have hk2 : k < (toAnnual (rest.drop 11)).length := by
        rw [toAnnual_cons, List.length_cons] at hk
        omega
      rw [ih k hk2]
      have hdd : (rest.drop 11).drop (12 * k) = (e :: rest).drop (12 * (k + 1)) := by
        rw [List.drop_drop]
        rw [show 12 * (k + 1) = (11 + 12 * k) + 1 from by ring]
        rw [List.drop_succ_cons]
      rw [hdd]

/-- C8: annual aggregation of a monthly ledger with consecutive months
1, 2, 3, ... sums interest and principal over the successive 12-month
blocks, takes the balance from each block's last month, assigns period
index `k+1 = ceil(month/12)` for the months `12k+1 .. 12k+12` of block `k`,
preserves the monthly totals of interest and principal, and covers a final
partial block of exactly the remaining months: the annual series has
`ceil(n/12)` rows and row `k` aggregates exactly `(l.drop (12k)).take 12`. -/
theorem claim8_annual_aggregation (l : List Entry)
    (hm : ∀ i, i < l.length → (l.getD i noEntry).month = i + 1) :
    ((toAnnual l).map Entry.interest).sum = (l.map Entry.interest).sum ∧
    ((toAnnual l).map Entry.principalPaid).sum = (l.map Entry.principalPaid).sum ∧
    (toAnnual l).length = (l.length + 11) / 12 ∧
    ∀ k, k < (toAnnual l).length →
      ((toAnnual l).getD k noEntry).month = k + 1 ∧
      ((toAnnual l).getD k noEntry).interest
          = (((l.drop (12 * k)).take 12).map Entry.interest).sum ∧
      ((toAnnual l).getD k noEntry).principalPaid
          = (((l.drop (12 * k)).take 12).map Entry.principalPaid).sum ∧
      ((toAnnual l).getD k noEntry).balance
          = (((l.drop (12 * k)).take 12).map Entry.balance).getLastD 0 := by
  refine ⟨toAnnual_sum_interest l, toAnnual_sum_principal l, toAnnual_length l, ?hrows⟩
  intro k hk
  have hlen := toAnnual_length l
  have hkl : 12 * k < l.length := by
    rw [hlen] at hk
    omega
  rw [toAnnual_getD l k hk]
  have hmonth : ((l.drop (12 * k)).map Entry.month).headD 0 = 12 * k + 1 := by
    rw [List.headD_eq_head?_getD, List.head?_map, List.head?_drop]
    rw [List.getElem?_eq_getElem hkl]
    have hgot := hm (12 * k) hkl
    rw [List.getD_eq_getElem?_getD, List.getElem?_eq_getElem hkl] at hgot
    simpa using hgot
  rw [hmonth]
  refine ⟨?hy, rfl, rfl, rfl⟩
  simp only [yearOf]
  omega

theorem claim8_witness :
    (∀ i, i < lw13.length → (lw13.getD i noEntry).month = i + 1) ∧
    (((toAnnual lw13).map Entry.interest).sum = (lw13.map Entry.interest).sum ∧
     ((toAnnual lw13).map Entry.principalPaid).sum = (lw13.map Entry.principalPaid).sum ∧
     (toAnnual lw13).length = (lw13.length + 11) / 12 ∧
     ∀ k, k < (toAnnual lw13).length →
       ((toAnnual lw13).getD k noEntry).month = k + 1 ∧
       ((toAnnual lw13).getD k noEntry).interest
           = (((lw13.drop (12 * k)).take 12).map Entry.interest).sum ∧
       ((toAnnual lw13).getD k noEntry).principalPaid
           = (((lw13.drop (12 * k)).take 12).map Entry.principalPaid).sum ∧
       ((toAnnual lw13).getD k noEntry).balance
           = (((lw13.drop (12 * k)).take 12).map Entry.balance).getLastD 0) :=
  ⟨by decide, claim8_annual_aggregation lw13 (by decide)⟩

end App
